import Mathlib

/-!
Verification of the location-annotation pass of the diary map generator
(`generate_app.py`): keyword pattern construction
(`create_keyword_pattern`), the keyword-to-place lookup
(`build_keyword_to_place_map`), and the tag-aware wrapping of location
mentions (`wrap_locations_in_html`).

Strings are modelled as `List Char`.  The Python regular expression is the
escaped alternation `\b(kw1|kw2|...)\b` over the keywords sorted by
descending length; since every keyword is `re.escape`d, each alternative
matches literally.  Matching is modelled with Python's semantics for an
alternation of literals bracketed by word boundaries: at each position the
alternatives are tried in order, an alternative succeeds when it occurs
literally at the position and both `\b` assertions hold, and `re.sub`
performs a left-to-right non-overlapping scan that also replaces
zero-width matches (advancing one character after each).  When the
keyword list is empty, `"|".join` yields the pattern `\b()\b`, a single
empty alternative.
-/

namespace Diary

abbrev Str := List Char

/-- A place record, with the two fields the annotator reads:
`place["id"]` and `place["keywords"]`. -/
structure Place where
  id : Str
  keywords : List Str
deriving DecidableEq, Repr

/-- Python `str.lower()` (ASCII inputs). -/
def lowerL (s : Str) : Str := s.map Char.toLower

/-- Python regex word character `\w`, ASCII range: `[A-Za-z0-9_]`. -/
def isWordChar (c : Char) : Bool := c.isAlphanum || c == '_'

def isWordOpt : Option Char → Bool
  | none => false
  | some c => isWordChar c

/-- The `\b` assertion between two (optional) neighbouring characters:
exactly one side is a word character. -/
def boundaryB (prev next : Option Char) : Bool :=
  isWordOpt prev != isWordOpt next

/-- Stable insertion keeping longer strings first
(`list.sort(key=len, reverse=True)` places `x` after every earlier
element of strictly greater length and before equal-or-shorter ones). -/
def insertDesc (x : Str) : List Str → List Str
  | [] => [x]
  | y :: ys => if x.length < y.length then y :: insertDesc x ys else x :: y :: ys

/-- Python's `all_keywords.sort(key=len, reverse=True)`: stable sort by
descending length. -/
def sortByLenDesc (l : List Str) : List Str := l.foldr insertDesc []

/-- The concatenation of every place's `keywords` list, in collection
order (`all_keywords.extend(place["keywords"])`). -/
def allKeywords (places : List Place) : List Str :=
  (places.map Place.keywords).flatten

/-- `create_keyword_pattern`: the alternation's alternatives, longest
first.  An empty keyword list joins to the empty pattern, i.e. a single
empty alternative (`\b()\b`). -/
def create_keyword_pattern (places : List Place) : List Str :=
  let kws := sortByLenDesc (allKeywords places)
  if kws.isEmpty then [[]] else kws

/-- `pre.isPrefixOf l` for our list strings. -/
def startsWithL : Str → Str → Bool
  | [], _ => true
  | _ :: _, [] => false
  | a :: as, b :: bs => a == b && startsWithL as bs

/-- The character just before the regex cursor after consuming `a`,
given the character before the match. -/
def lastCharOpt (a : Str) (prev : Option Char) : Option Char :=
  match a.getLast? with
  | some c => some c
  | none => prev

/-- One match attempt of `\b(a1|a2|...)\b` at a position: `prev` is the
character before the position, `rem` the text from the position on.
Alternatives are tried in order; alternative `a` succeeds when the
leading `\b` holds, `a` occurs literally here, and the trailing `\b`
holds after it. -/
def findMatch (alts : List Str) (prev : Option Char) (rem : Str) : Option Str :=
  if boundaryB prev rem.head? then
    alts.find? fun a =>
      startsWithL a rem && boundaryB (lastCharOpt a prev) ((rem.drop a.length).head?)
  else none

/-- A segment of `re.sub`'s output: a copied character or a matched
keyword (to be passed through `replace_match`). -/
inductive Seg where
  | lit (c : Char)
  | hit (kw : Str)
deriving DecidableEq, Repr

/-- `re.sub`'s scan, fuelled (any fuel above the text length is enough):
at each position attempt a match; on a non-empty match emit it and resume
after it, on a zero-width match emit it, copy one character and resume;
otherwise copy one character. -/
def subSegsF (alts : List Str) : Nat → Option Char → Str → List Seg
  | 0, _, rem => rem.map Seg.lit
  | fuel + 1, prev, rem =>
    match findMatch alts prev rem with
    | some a =>
      match a with
      | [] =>
        match rem with
        | [] => [Seg.hit []]
        | c :: rest => Seg.hit [] :: Seg.lit c :: subSegsF alts fuel (some c) rest
      | _ :: _ =>
        Seg.hit a :: subSegsF alts fuel (lastCharOpt a prev) (rem.drop a.length)
    | none =>
      match rem with
      | [] => []
      | c :: rest => Seg.lit c :: subSegsF alts fuel (some c) rest

def subSegs (alts : List Str) (prev : Option Char) (rem : Str) : List Seg :=
  subSegsF alts (rem.length + 1) prev rem

/-- `build_keyword_to_place_map`: Python dict built by
`mapping[keyword.lower()] = place` over places then keywords, i.e.
last-writer-wins lookup over the insertion sequence. -/
def insertionList (places : List Place) : List (Str × Place) :=
  (places.map fun p => p.keywords.map fun k => (lowerL k, p)).flatten

def build_keyword_to_place_map (places : List Place) : Str → Option Place :=
  fun k => (insertionList places).foldl
    (fun acc kv => if kv.1 == k then some kv.2 else acc) none

/-- The literal pieces of the f-string
`<span class="location" data-place-id="{id}">{keyword}</span>`. -/
def wrapPre : Str := ("<span class=\"location\" data-place-id=\"").toList

def wrapMid : Str := ("\">").toList

def wrapPost : Str := ("</span>").toList

/-- `replace_match`: look the matched text up by its lower-casing; wrap
it if a place is found, otherwise return it unannotated. -/
def replace_match (places : List Place) (kw : Str) : Str :=
  match build_keyword_to_place_map places (lowerL kw) with
  | some place => wrapPre ++ place.id ++ wrapMid ++ kw ++ wrapPost
  | none => kw

def segOut (places : List Place) : Seg → Str
  | .lit c => [c]
  | .hit kw => replace_match places kw

def segPlain : Seg → Str
  | .lit c => [c]
  | .hit kw => kw

/-- `pattern.sub(replace_match, text)`. -/
def subst (places : List Place) (t : Str) : Str :=
  ((subSegs (create_keyword_pattern places) none t).map (segOut places)).flatten

/-- The scanner state of `wrap_locations_in_html`'s character loop. -/
structure ScanState where
  parts : List Str
  lastEnd : Nat
  inTag : Bool
  tagStart : Nat
deriving DecidableEq, Repr

/-- `html[a:b]`. -/
def slice (l : Str) (a b : Nat) : Str := (l.drop a).take (b - a)

/-- The `for i, char in enumerate(html)` loop: `cs` is the remaining
suffix, `i` the index of its first character in `html`. -/
def scanLoop (places : List Place) (html : Str) : Str → Nat → ScanState → ScanState
  | [], _, st => st
  | c :: rest, i, st =>
    if c == '<' then
      scanLoop places html rest (i + 1)
        { (if !st.inTag && decide (st.lastEnd < i) then
             { st with parts := st.parts ++ [subst places (slice html st.lastEnd i)] }
           else st) with
          inTag := true, tagStart := i }
    else if c == '>' && st.inTag then
      scanLoop places html rest (i + 1)
        { st with parts := st.parts ++ [slice html st.tagStart (i + 1)],
                  inTag := false, lastEnd := i + 1 }
    else
      scanLoop places html rest (i + 1) st

/-- The epilogue: `if last_end < len(html): parts.append(sub(html[last_end:]))`. -/
def finishParts (html : Str) (places : List Place) (st : ScanState) : List Str :=
  if st.lastEnd < html.length then
    st.parts ++ [subst places (html.drop st.lastEnd)]
  else st.parts

/-- `wrap_locations_in_html(html, places)`. -/
def wrap_locations_in_html (html : Str) (places : List Place) : Str :=
  (finishParts html places (scanLoop places html html 0 ⟨[], 0, false, 0⟩)).flatten

/-! ### Run decomposition of well-formed markup

A well-formed input is an alternation of text runs (no `<`) and complete
tags `<body>` (body free of `<` and `>`). -/

inductive Run where
  | text (t : Str)
  | tag (body : Str)
deriving DecidableEq, Repr

def renderRun : Run → Str
  | .text t => t
  | .tag b => '<' :: (b ++ ['>'])

def renderRuns (rs : List Run) : Str := (rs.map renderRun).flatten

/-- What the annotator does to a single run: text runs are passed through
the pattern substitution, tag runs are copied unchanged. -/
def processRun (places : List Place) : Run → Str
  | .text t => subst places t
  | .tag b => '<' :: (b ++ ['>'])

/-- A canonical run decomposition: text runs are non-empty, contain no
`<`, and are always followed by a tag (or end the input); tag bodies
contain neither `<` nor `>`. -/
inductive GoodRuns : List Run → Prop
  | nil : GoodRuns []
  | tag {b rs} : '<' ∉ b → '>' ∉ b → GoodRuns rs → GoodRuns (Run.tag b :: rs)
  | textEnd {t} : t ≠ [] → '<' ∉ t → GoodRuns [Run.text t]
  | textTag {t b rs} : t ≠ [] → '<' ∉ t → '<' ∉ b → '>' ∉ b → GoodRuns rs →
      GoodRuns (Run.text t :: Run.tag b :: rs)

/-- An input has well-formed tags when it is the rendering of a canonical
run decomposition: every `<` opens a tag closed by the next `>`. -/
def WellFormed (html : Str) : Prop := ∃ rs, GoodRuns rs ∧ renderRuns rs = html

/-- The output segments of the whole annotator on a run decomposition:
for text runs the `re.sub` segments, for tag runs the tag itself. -/
inductive OSeg where
  | piece (s : Seg)
  | tagCopy (b : Str)
deriving DecidableEq, Repr

def osegOut (places : List Place) : OSeg → Str
  | .piece s => segOut places s
  | .tagCopy b => '<' :: (b ++ ['>'])

def osegPlain : OSeg → Str
  | .piece s => segPlain s
  | .tagCopy b => '<' :: (b ++ ['>'])

def outSegsRuns (places : List Place) (rs : List Run) : List OSeg :=
  rs.flatMap fun r =>
    match r with
    | .text t => (subSegs (create_keyword_pattern places) none t).map OSeg.piece
    | .tag b => [OSeg.tagCopy b]

/-! ### Concrete instances used by the claims -/

/-- A place whose stored keyword is capitalised, as in `places.json`. -/
def caenPlace : Place := ⟨("caen").toList, [("Caen").toList]⟩

/-- A place whose stored keyword is lower-case. -/
def caenLowerPlace : Place := ⟨("caen").toList, [("caen").toList]⟩

/-- A place whose keyword set contains both "Hamel" and "Le Hamel". -/
def hamelPlace : Place := ⟨("le-hamel").toList, [("Hamel").toList, ("Le Hamel").toList]⟩

/-- Two distinct places sharing the alias "caen" up to case. -/
def placeA : Place := ⟨("pl-a").toList, [("Caen").toList]⟩

def placeB : Place := ⟨("pl-b").toList, [("caen").toList]⟩

/-- The run decomposition of `<p>He went to Caen.</p>`. -/
def demoRuns : List Run :=
  [Run.tag ("p").toList, Run.text ("He went to Caen.").toList, Run.tag ("/p").toList]

/-! ### Scanner lemmas -/

theorem scan_text (places : List Place) (html : Str) :
    ∀ (t : Str), '<' ∉ t → ∀ rest i st, st.inTag = false →
      scanLoop places html (t ++ rest) i st = scanLoop places html rest (i + t.length) st := by
  intro t
  induction t with
  | nil =>
    intro _ rest i st _
    simp
  | cons c t' ih =>
    intro hni rest i st hst
    have hc1 : (c == '<') = false := beq_eq_false_iff_ne.mpr fun h => hni (by simp [h])
    have ht' : '<' ∉ t' := fun h => hni (List.mem_cons_of_mem _ h)
    rw [List.cons_append, scanLoop, hc1]
    simp only [Bool.false_eq_true, if_false]
    rw [hst, Bool.and_false]
    simp only [Bool.false_eq_true, if_false]
    rw [ih ht' rest (i + 1) st hst]
    have harith : i + 1 + t'.length = i + (c :: t').length := by
      simp only [List.length_cons]; omega
    rw [harith]

theorem scan_tag (places : List Place) (html : Str) :
    ∀ (b : Str), '<' ∉ b → '>' ∉ b → ∀ rest i st, st.inTag = true →
      scanLoop places html (b ++ '>' :: rest) i st
        = scanLoop places html rest (i + b.length + 1)
            { st with parts := st.parts ++ [slice html st.tagStart (i + b.length + 1)],
                      inTag := false, lastEnd := i + b.length + 1 } := by
  intro b
  induction b with
  | nil =>
    intro _ _ rest i st hst
    rw [List.nil_append, scanLoop]
    have h1 : ('>' == '<') = false := by decide
    rw [h1]
    simp only [Bool.false_eq_true, if_false]
    rw [hst]
    simp
  | cons c b' ih =>
    intro hnlt hngt rest i st hst
    have hc1 : (c == '<') = false := beq_eq_false_iff_ne.mpr fun h => hnlt (by simp [h])
    have hc2 : (c == '>') = false := beq_eq_false_iff_ne.mpr fun h => hngt (by simp [h])
    rw [List.cons_append, scanLoop, hc1]
    simp only [Bool.false_eq_true, if_false]
    rw [hc2, Bool.false_and]
    simp only [Bool.false_eq_true, if_false]
    rw [ih (fun h => hnlt (List.mem_cons_of_mem _ h))
          (fun h => hngt (List.mem_cons_of_mem _ h)) rest (i + 1) st hst]
    have harith : i + 1 + b'.length + 1 = i + (c :: b').length + 1 := by
      simp only [List.length_cons]; omega
    rw [harith]

theorem take_tag (b R : Str) :
    ('<' :: (b ++ '>' :: R)).take (b.length + 2) = '<' :: (b ++ ['>']) := by
  have h2 : b.length + 2 = b.length + 1 + 1 := by omega
  rw [h2, List.take_succ_cons, List.take_append]
  simp

theorem drop_tag (b R : Str) :
    ('<' :: (b ++ '>' :: R)).drop (b.length + 2) = R := by
  have h2 : b.length + 2 = b.length + 1 + 1 := by omega
  rw [h2, List.drop_succ_cons, List.drop_append]
  simp

/-- The heart of the tag-aware scan: on the rendering of a canonical run
decomposition, started at index `i` with `last_end = i` and `in_tag`
false, the loop plus epilogue emit the substituted text runs and the
verbatim tag runs, in order. -/
theorem scan_runs (places : List Place) (html : Str) :
    ∀ rs, GoodRuns rs → ∀ i parts ts,
      html.drop i = renderRuns rs →
      finishParts html places (scanLoop places html (renderRuns rs) i ⟨parts, i, false, ts⟩)
        = parts ++ rs.map (processRun places) := by
  intro rs hg
  induction hg with
  | nil =>
    intro i parts ts hdrop
    have hr : renderRuns ([] : List Run) = [] := by simp [renderRuns]
    rw [hr] at hdrop ⊢
    have hlen : html.length ≤ i := List.drop_eq_nil_iff.mp hdrop
    rw [scanLoop]
    simp [finishParts, Nat.not_lt.mpr hlen]
  | @tag b rs' hb1 hb2 hg' ih =>
    intro i parts ts hdrop
    have hshape : renderRuns (Run.tag b :: rs') = '<' :: (b ++ '>' :: renderRuns rs') := by
      simp [renderRuns, renderRun]
    rw [hshape] at hdrop
    rw [hshape]
    have hd0 : decide (i < i) = false := decide_eq_false (Nat.lt_irrefl i)
    have step : scanLoop places html ('<' :: (b ++ '>' :: renderRuns rs')) i ⟨parts, i, false, ts⟩
        = scanLoop places html (b ++ '>' :: renderRuns rs') (i + 1) ⟨parts, i, true, i⟩ := by
      rw [scanLoop]
      simp [hd0]
    rw [step, scan_tag places html b hb1 hb2 _ _ _ rfl]
    dsimp only
    have hslice : slice html i (i + 1 + b.length + 1) = '<' :: (b ++ ['>']) := by
      rw [slice, hdrop]
      have h3 : i + 1 + b.length + 1 - i = b.length + 2 := by omega
      rw [h3, take_tag]
    have harith : i + 1 + b.length + 1 = i + (b.length + 2) := by omega
    have hdrop' : html.drop (i + (b.length + 2)) = renderRuns rs' := by
      rw [← List.drop_drop, hdrop, drop_tag]
    rw [hslice, harith, ih (i + (b.length + 2)) (parts ++ ['<' :: (b ++ ['>'])]) i hdrop']
    simp [processRun]
  | @textEnd t ht htl =>
    intro i parts ts hdrop
    have hshape : renderRuns [Run.text t] = t := by simp [renderRuns, renderRun]
    rw [hshape] at hdrop
    rw [hshape]
    have hstep : scanLoop places html t i ⟨parts, i, false, ts⟩ = ⟨parts, i, false, ts⟩ := by
      have h := scan_text places html t htl [] i ⟨parts, i, false, ts⟩ rfl
      rw [List.append_nil] at h
      rw [h, scanLoop]
    rw [hstep]
    have hlt : i < html.length := by
      by_contra hcon
      push_neg at hcon
      have hnil : html.drop i = [] := List.drop_eq_nil_iff.mpr hcon
      rw [hdrop] at hnil
      exact ht hnil
    simp [finishParts, hlt, hdrop, processRun]
  | @textTag t b rs' ht htl hb1 hb2 hg' ih =>
    intro i parts ts hdrop
    have hshape : renderRuns (Run.text t :: Run.tag b :: rs')
        = t ++ ('<' :: (b ++ '>' :: renderRuns rs')) := by
      simp [renderRuns, renderRun]
    rw [hshape] at hdrop
    rw [hshape, scan_text places html t htl _ i ⟨parts, i, false, ts⟩ rfl]
    have htpos : 0 < t.length := List.length_pos.mpr ht
    have hd1 : decide (i < i + t.length) = true := decide_eq_true (by omega)
    have step : scanLoop places html ('<' :: (b ++ '>' :: renderRuns rs')) (i + t.length)
          ⟨parts, i, false, ts⟩
        = scanLoop places html (b ++ '>' :: renderRuns rs') (i + t.length + 1)
            ⟨parts ++ [subst places (slice html i (i + t.length))], i, true, i + t.length⟩ := by
      rw [scanLoop]
      simp [hd1, htpos]
    rw [step, scan_tag places html b hb1 hb2 _ _ _ rfl]
    dsimp only
    have hsl1 : slice html i (i + t.length) = t := by
      rw [slice, hdrop]
      have h3 : i + t.length - i = t.length := by omega
      rw [h3, List.take_left]
    have hdt : html.drop (i + t.length) = '<' :: (b ++ '>' :: renderRuns rs') := by
      rw [← List.drop_drop, hdrop, List.drop_left]
    have hsl2 : slice html (i + t.length) (i + t.length + 1 + b.length + 1)
        = '<' :: (b ++ ['>']) := by
      rw [slice, hdt]
      have h3 : i + t.length + 1 + b.length + 1 - (i + t.length) = b.length + 2 := by omega
      rw [h3, take_tag]
    have harith : i + t.length + 1 + b.length + 1 = i + t.length + (b.length + 2) := by omega
    have hdrop' : html.drop (i + t.length + (b.length + 2)) = renderRuns rs' := by
      rw [← List.drop_drop, hdt, drop_tag]
    rw [hsl1, hsl2, harith,
       ih (i + t.length + (b.length + 2)) (parts ++ [subst places t] ++ ['<' :: (b ++ ['>'])])
         (i + t.length) hdrop']
    simp [processRun]

/-! ### Matching and substitution lemmas -/

theorem startsWithL_length : ∀ (a l : Str), startsWithL a l = true → a.length ≤ l.length := by
  intro a
  induction a with
  | nil => intro l _; simp
  | cons c a' ih =>
    intro l h
    cases l with
    | nil => simp [startsWithL] at h
    | cons d l' =>
      rw [startsWithL, Bool.and_eq_true] at h
      simpa using ih l' h.2

theorem startsWithL_append : ∀ (a l : Str), startsWithL a l = true → a ++ l.drop a.length = l := by
  intro a
  induction a with
  | nil => intro l _; simp
  | cons c a' ih =>
    intro l h
    cases l with
    | nil => simp [startsWithL] at h
    | cons d l' =>
      rw [startsWithL, Bool.and_eq_true, beq_iff_eq] at h
      obtain ⟨rfl, h2⟩ := h
      simpa using ih l' h2

theorem findMatch_some {alts : List Str} {prev : Option Char} {rem a : Str}
    (h : findMatch alts prev rem = some a) :
    a ∈ alts ∧ startsWithL a rem = true
      ∧ boundaryB prev rem.head? = true
      ∧ boundaryB (lastCharOpt a prev) ((rem.drop a.length).head?) = true := by
  rw [findMatch] at h
  by_cases hb : boundaryB prev rem.head? = true
  · rw [if_pos hb] at h
    have hmem := List.mem_of_find?_eq_some h
    have hp := List.find?_some h
    rw [Bool.and_eq_true] at hp
    exact ⟨hmem, hp.1, hb, hp.2⟩
  · rw [if_neg hb] at h
    cases h

theorem subSegsF_plain (alts : List Str) :
    ∀ fuel (prev : Option Char) (rem : Str), rem.length < fuel →
      ((subSegsF alts fuel prev rem).map segPlain).flatten = rem := by
  intro fuel
  induction fuel with
  | zero => intro prev rem h; omega
  | succ f ih =>
    intro prev rem h
    cases hm : findMatch alts prev rem with
    | none =>
      cases rem with
      | nil => rw [subSegsF, hm]; simp
      | cons c rest =>
        rw [subSegsF, hm]
        simp only [List.map_cons, List.flatten_cons, segPlain]
        rw [ih (some c) rest (by simp only [List.length_cons] at h; omega)]
        simp
    | some a =>
      cases a with
      | nil =>
        cases rem with
        | nil => rw [subSegsF, hm]; simp [segPlain]
        | cons c rest =>
          rw [subSegsF, hm]
          simp only [List.map_cons, List.flatten_cons, segPlain]
          rw [ih (some c) rest (by simp only [List.length_cons] at h; omega)]
          simp
      | cons c0 a' =>
        have hsw := (findMatch_some hm).2.1
        have hlen := startsWithL_length _ _ hsw
        cases rem with
        | nil => simp [startsWithL] at hsw
        | cons d rest' =>
          rw [subSegsF, hm]
          simp only [List.map_cons, List.flatten_cons, segPlain]
          rw [ih (lastCharOpt (c0 :: a') prev) ((d :: rest').drop (c0 :: a').length) (by
            rw [List.length_drop]
            simp only [List.length_cons] at hlen h ⊢
            omega)]
          exact startsWithL_append _ _ hsw

theorem subSegs_plain (alts : List Str) (prev : Option Char) (rem : Str) :
    ((subSegs alts prev rem).map segPlain).flatten = rem :=
  subSegsF_plain alts (rem.length + 1) prev rem (Nat.lt_succ_self _)

theorem subSegsF_id_empty :
    ∀ fuel (prev : Option Char) (rem : Str), rem.length < fuel →
      ((subSegsF [([] : Str)] fuel prev rem).map (segOut [])).flatten = rem := by
  intro fuel
  induction fuel with
  | zero => intro prev rem h; omega
  | succ f ih =>
    intro prev rem h
    cases hm : findMatch [([] : Str)] prev rem with
    | none =>
      cases rem with
      | nil => rw [subSegsF, hm]; simp
      | cons c rest =>
        rw [subSegsF, hm]
        simp only [List.map_cons, List.flatten_cons, segOut]
        rw [ih (some c) rest (by simp only [List.length_cons] at h; omega)]
        simp
    | some a =>
      have ha : a = [] := by
        have := (findMatch_some hm).1
        simpa using this
      subst ha
      cases rem with
      | nil =>
        rw [subSegsF, hm]
        simp [segOut, replace_match, build_keyword_to_place_map, insertionList, lowerL]
      | cons c rest =>
        rw [subSegsF, hm]
        simp only [List.map_cons, List.flatten_cons, segOut]
        rw [ih (some c) rest (by simp only [List.length_cons] at h; omega)]
        simp [replace_match, build_keyword_to_place_map, insertionList, lowerL]

theorem create_keyword_pattern_nil : create_keyword_pattern [] = [([] : Str)] := by
  simp [create_keyword_pattern, allKeywords, sortByLenDesc]

theorem subst_empty_places (t : Str) : subst [] t = t := by
  rw [subst, create_keyword_pattern_nil]
  exact subSegsF_id_empty (t.length + 1) none t (Nat.lt_succ_self _)

/-! ### Sorting lemmas -/

theorem mem_insertDesc {x y : Str} {l : List Str} : y ∈ insertDesc x l ↔ y = x ∨ y ∈ l := by
  induction l with
  | nil => simp [insertDesc]
  | cons z zs ih =>
    rw [insertDesc]
    by_cases hc : x.length < z.length
    · rw [if_pos hc]
      simp only [List.mem_cons, ih]
      tauto
    · rw [if_neg hc]
      simp only [List.mem_cons]

theorem pairwise_insertDesc {x : Str} {l : List Str}
    (h : l.Pairwise fun a b => b.length ≤ a.length) :
    (insertDesc x l).Pairwise fun a b => b.length ≤ a.length := by
  induction l with
  | nil => simp [insertDesc]
  | cons z zs ih =>
    rw [List.pairwise_cons] at h
    obtain ⟨hz, hzs⟩ := h
    rw [insertDesc]
    by_cases hc : x.length < z.length
    · rw [if_pos hc, List.pairwise_cons]
      refine ⟨fun y hy => ?_, ih hzs⟩
      rcases mem_insertDesc.mp hy with rfl | hy'
      · omega
      · exact hz y hy'
    · rw [if_neg hc, List.pairwise_cons]
      refine ⟨fun y hy => ?_, List.pairwise_cons.mpr ⟨hz, hzs⟩⟩
      rcases List.mem_cons.mp hy with rfl | hy'
      · omega
      · have := hz y hy'
        omega

theorem sortByLenDesc_sorted (l : List Str) :
    (sortByLenDesc l).Pairwise fun a b => b.length ≤ a.length := by
  induction l with
  | nil => simp [sortByLenDesc]
  | cons x xs ih => exact pairwise_insertDesc ih

theorem mem_sortByLenDesc {x : Str} {l : List Str} : x ∈ sortByLenDesc l ↔ x ∈ l := by
  induction l with
  | nil => simp [sortByLenDesc]
  | cons y ys ih =>
    show x ∈ insertDesc y (sortByLenDesc ys) ↔ _
    rw [mem_insertDesc, ih]
    simp

/-! ### Lookup-map lemmas -/

theorem lookup_foldl_nomatch {k : Str} {l : List (Str × Place)} :
    ∀ {acc : Option Place}, (∀ kv ∈ l, kv.1 ≠ k) →
      l.foldl (fun acc kv => if kv.1 == k then some kv.2 else acc) acc = acc := by
  induction l with
  | nil => intro acc _; rfl
  | cons kv l' ih =>
    intro acc h
    rw [List.foldl_cons]
    have hne : (kv.1 == k) = false := beq_eq_false_iff_ne.mpr (h kv (by simp))
    rw [hne]
    simp only [Bool.false_eq_true, if_false]
    exact ih fun kv' h' => h kv' (List.mem_cons_of_mem _ h')

theorem lookup_foldl_isSome {k : Str} {l : List (Str × Place)} :
    ∀ {acc : Option Place}, acc.isSome →
      (l.foldl (fun acc kv => if kv.1 == k then some kv.2 else acc) acc).isSome := by
  induction l with
  | nil => intro acc h; exact h
  | cons kv l' ih =>
    intro acc h
    rw [List.foldl_cons]
    by_cases hk : (kv.1 == k) = true
    · rw [hk, if_pos rfl]
      exact ih rfl
    · rw [Bool.not_eq_true] at hk
      rw [hk]
      simp only [Bool.false_eq_true, if_false]
      exact ih h

theorem lookup_foldl_mem {k : Str} {v : Place} {l : List (Str × Place)} :
    ∀ {acc : Option Place}, (k, v) ∈ l →
      (l.foldl (fun acc kv => if kv.1 == k then some kv.2 else acc) acc).isSome := by
  induction l with
  | nil => intro acc h; cases h
  | cons kv l' ih =>
    intro acc h
    rw [List.foldl_cons]
    rcases List.mem_cons.mp h with heq | hmem
    · rw [← heq]
      simp only [beq_self_eq_true, if_pos]
      exact lookup_foldl_isSome rfl
    · exact ih hmem

theorem lookup_foldl_allsame {k : Str} {p : Place} {l : List (Str × Place)} :
    ∀ {acc : Option Place}, (∀ kv ∈ l, kv.2 = p) →
      (acc = some p ∨ ∃ kv ∈ l, kv.1 = k) →
      l.foldl (fun acc kv => if kv.1 == k then some kv.2 else acc) acc = some p := by
  induction l with
  | nil =>
    intro acc hall hex
    rcases hex with h | ⟨kv, hm, _⟩
    · exact h
    · cases hm
  | cons kv l' ih =>
    intro acc hall hex
    rw [List.foldl_cons]
    by_cases hk : (kv.1 == k) = true
    · rw [hk, if_pos rfl]
      refine ih (fun kv' h' => hall kv' (List.mem_cons_of_mem _ h')) (Or.inl ?_)
      rw [hall kv (by simp)]
    · rw [Bool.not_eq_true] at hk
      rw [hk]
      simp only [Bool.false_eq_true, if_false]
      refine ih (fun kv' h' => hall kv' (List.mem_cons_of_mem _ h')) ?_
      rcases hex with h | ⟨kv', hm, hkey⟩
      · exact Or.inl h
      · rcases List.mem_cons.mp hm with heq | hmem
        · exfalso
          rw [heq] at hkey
          rw [beq_eq_false_iff_ne] at hk
          exact hk hkey
        · exact Or.inr ⟨kv', hmem, hkey⟩

theorem mem_insertionList {kv : Str × Place} {ps : List Place} :
    kv ∈ insertionList ps ↔ ∃ p ∈ ps, ∃ kw ∈ p.keywords, kv = (lowerL kw, p) := by
  simp only [insertionList, List.mem_flatten, List.mem_map]
  constructor
  · rintro ⟨l, ⟨p, hp, rfl⟩, hkv⟩
    rcases List.mem_map.mp hkv with ⟨kw, hkw, rfl⟩
    exact ⟨p, hp, kw, hkw, rfl⟩
  · rintro ⟨p, hp, kw, hkw, rfl⟩
    exact ⟨p.keywords.map fun k => (lowerL k, p), ⟨p, hp, rfl⟩, List.mem_map.mpr ⟨kw, hkw, rfl⟩⟩

theorem mem_allKeywords {kw : Str} {ps : List Place} :
    kw ∈ allKeywords ps ↔ ∃ p ∈ ps, kw ∈ p.keywords := by
  simp only [allKeywords, List.mem_flatten, List.mem_map]
  constructor
  · rintro ⟨l, ⟨p, hp, rfl⟩, hkw⟩
    exact ⟨p, hp, hkw⟩
  · rintro ⟨p, hp, hkw⟩
    exact ⟨p.keywords, ⟨p, hp, rfl⟩, hkw⟩

/-! ### The annotator on well-formed input -/

/-- On well-formed input the annotator substitutes text runs and copies
tag runs, in order. -/
theorem wrap_runs (places : List Place) (rs : List Run) (h : GoodRuns rs) :
    wrap_locations_in_html (renderRuns rs) places = (rs.map (processRun places)).flatten := by
  unfold wrap_locations_in_html
  rw [scan_runs places (renderRuns rs) rs h 0 [] 0 (by simp)]
  simp

theorem outSegs_out (places : List Place) (rs : List Run) :
    ((outSegsRuns places rs).map (osegOut places)).flatten
      = (rs.map (processRun places)).flatten := by
  induction rs with
  | nil => simp [outSegsRuns]
  | cons r rs' ih =>
    rw [outSegsRuns, List.flatMap_cons, List.map_append, List.flatten_append]
    rw [outSegsRuns] at ih
    rw [ih, List.map_cons, List.flatten_cons]
    congr 1
    cases r with
    | text t =>
      rw [List.map_map]
      have hco : osegOut places ∘ OSeg.piece = segOut places := funext fun s => rfl
      rw [hco]
      rfl
    | tag b => simp [osegOut, processRun]

theorem outSegs_plain (places : List Place) (rs : List Run) :
    ((outSegsRuns places rs).map osegPlain).flatten = renderRuns rs := by
  induction rs with
  | nil => simp [outSegsRuns, renderRuns]
  | cons r rs' ih =>
    rw [outSegsRuns, List.flatMap_cons, List.map_append, List.flatten_append]
    rw [outSegsRuns] at ih
    rw [ih]
    have hr : renderRuns (r :: rs') = renderRun r ++ renderRuns rs' := by
      simp [renderRuns]
    rw [hr]
    congr 1
    cases r with
    | text t =>
      rw [List.map_map]
      have hco : osegPlain ∘ OSeg.piece = segPlain := funext fun s => rfl
      rw [hco]
      exact subSegs_plain _ _ _
    | tag b => simp [osegPlain, renderRun]

theorem outSegs_shape (places : List Place) (rs : List Run) :
    ∀ os ∈ outSegsRuns places rs,
      osegOut places os = osegPlain os
      ∨ ∃ pid, osegOut places os = wrapPre ++ pid ++ wrapMid ++ osegPlain os ++ wrapPost := by
  intro os _
  cases os with
  | tagCopy b => exact Or.inl rfl
  | piece s =>
    cases s with
    | lit c => exact Or.inl rfl
    | hit kw =>
      cases hx : build_keyword_to_place_map places (lowerL kw) with
      | none =>
        left
        show replace_match places kw = kw
        rw [replace_match, hx]
      | some p =>
        right
        refine ⟨p.id, ?_⟩
        show replace_match places kw = _
        rw [replace_match, hx]
        rfl

/-! ### The claims -/

/-- C1: for every input whose tags are well-formed (it renders a
canonical run decomposition), `wrap_locations_in_html` copies every tag
run to the output unchanged, and only text runs strictly between tags
undergo pattern substitution: the output is exactly the concatenation of
the substituted text runs and the verbatim tag runs. -/
theorem claim_C1_tag_safety (places : List Place) (rs : List Run) (h : GoodRuns rs) :
    wrap_locations_in_html (renderRuns rs) places = (rs.map (processRun places)).flatten :=
  wrap_runs places rs h

theorem claim_C1_witness :
    GoodRuns demoRuns
    ∧ wrap_locations_in_html (renderRuns demoRuns) [caenPlace]
        = (demoRuns.map (processRun [caenPlace])).flatten := by
  have hg : GoodRuns demoRuns :=
    GoodRuns.tag (by decide) (by decide)
      (GoodRuns.textTag (by decide) (by decide) (by decide) (by decide) GoodRuns.nil)
  exact ⟨hg, claim_C1_tag_safety [caenPlace] demoRuns hg⟩

/-- C2: `create_keyword_pattern` orders all aliases by descending length
before joining them into one alternation, and for a place whose keyword
set includes both "Le Hamel" and "Hamel", the text "at Le Hamel" produces
exactly one wrapper spanning "Le Hamel". -/
theorem claim_C2_longest_match :
    (∀ places : List Place,
      (create_keyword_pattern places).Pairwise fun a b => b.length ≤ a.length)
    ∧ wrap_locations_in_html (("at Le Hamel").toList) [hamelPlace]
        = ("at <span class=\"location\" data-place-id=\"le-hamel\">Le Hamel</span>").toList := by
  constructor
  · intro places
    show (if (sortByLenDesc (allKeywords places)).isEmpty = true then [([] : Str)]
          else sortByLenDesc (allKeywords places)).Pairwise fun a b => b.length ≤ a.length
    split
    · simp
    · exact sortByLenDesc_sorted _
  · decide

/-- C3: for every well-formed input, the output decomposes into segments
that render to it exactly; each segment's wrapper-stripped content equals
the corresponding piece of input (the whole stripped output is the
input), and every segment is either verbatim input or an inserted
wrapper around verbatim input. -/
theorem claim_C3_content_preservation (places : List Place) (rs : List Run) (h : GoodRuns rs) :
    wrap_locations_in_html (renderRuns rs) places
        = ((outSegsRuns places rs).map (osegOut places)).flatten
    ∧ ((outSegsRuns places rs).map osegPlain).flatten = renderRuns rs
    ∧ ∀ os ∈ outSegsRuns places rs,
        osegOut places os = osegPlain os
        ∨ ∃ pid, osegOut places os = wrapPre ++ pid ++ wrapMid ++ osegPlain os ++ wrapPost :=
  ⟨by rw [wrap_runs places rs h, outSegs_out],
   outSegs_plain places rs,
   outSegs_shape places rs⟩

theorem claim_C3_witness :
    GoodRuns demoRuns
    ∧ (wrap_locations_in_html (renderRuns demoRuns) [caenPlace]
          = ((outSegsRuns [caenPlace] demoRuns).map (osegOut [caenPlace])).flatten
        ∧ ((outSegsRuns [caenPlace] demoRuns).map osegPlain).flatten = renderRuns demoRuns
        ∧ ∀ os ∈ outSegsRuns [caenPlace] demoRuns,
            osegOut [caenPlace] os = osegPlain os
            ∨ ∃ pid, osegOut [caenPlace] os
                = wrapPre ++ pid ++ wrapMid ++ osegPlain os ++ wrapPost) := by
  have hg : GoodRuns demoRuns :=
    GoodRuns.tag (by decide) (by decide)
      (GoodRuns.textTag (by decide) (by decide) (by decide) (by decide) GoodRuns.nil)
  exact ⟨hg, claim_C3_content_preservation [caenPlace] demoRuns hg⟩

/-- C4 (counterexample): the annotator is not idempotent — applying
`wrap_locations_in_html` to its own output on input "Caen" with the place
"caen" changes the output again. -/
theorem claim_C4_counterexample :
    wrap_locations_in_html (wrap_locations_in_html (("Caen").toList) [caenPlace]) [caenPlace]
      ≠ wrap_locations_in_html (("Caen").toList) [caenPlace] := by decide

/-- C4 (amended): the annotator is not idempotent: an alias occurrence
that is the text content of an inserted wrapper is wrapped again by a
second application; on input "Caen" the second application produces the
doubly wrapped output. -/
theorem claim_C4_double_wrap :
    wrap_locations_in_html (wrap_locations_in_html (("Caen").toList) [caenPlace]) [caenPlace]
      = ("<span class=\"location\" data-place-id=\"caen\"><span class=\"location\" data-place-id=\"caen\">Caen</span></span>").toList := by
  decide

/-- C5 (counterexample): matching is case-sensitive, not
case-insensitive: with stored keyword "caen" the literal text "Caen" is
not matched and no wrapper is produced. -/
theorem claim_C5_counterexample :
    wrap_locations_in_html (("Caen").toList) [caenLowerPlace] = ("Caen").toList
    ∧ wrap_locations_in_html (("Caen").toList) [caenLowerPlace]
        ≠ ("<span class=\"location\" data-place-id=\"caen\">Caen</span>").toList := by
  constructor
  · decide
  · decide

/-- C5 (amended): pattern matching is case-sensitive (keyword "caen"
does not match text "Caen"); only the place lookup after a match is
case-insensitive: the matched text is looked up lower-cased (stored
keyword "Caen" is found under key "caen"), and the wrapper's visible
content is always the matched substring verbatim. -/
theorem claim_C5_case_sensitivity :
    wrap_locations_in_html (("Caen").toList) [caenLowerPlace] = ("Caen").toList
    ∧ wrap_locations_in_html (("Caen").toList) [caenPlace]
        = ("<span class=\"location\" data-place-id=\"caen\">Caen</span>").toList
    ∧ ∀ (places : List Place) (kw : Str),
        replace_match places kw = kw
        ∨ ∃ p, build_keyword_to_place_map places (lowerL kw) = some p
            ∧ replace_match places kw = wrapPre ++ p.id ++ wrapMid ++ kw ++ wrapPost := by
  refine ⟨by decide, by decide, fun places kw => ?_⟩
  cases hx : build_keyword_to_place_map places (lowerL kw) with
  | none =>
    left
    rw [replace_match, hx]
  | some p =>
    right
    refine ⟨p, rfl, ?_⟩
    rw [replace_match, hx]

/-- C6: on input containing an unterminated tag the code does NOT merely
exclude the trailing content from annotation: it emits the text between
the last completed tag and the unterminated `<` twice and
pattern-substitutes the whole trailing remainder, duplicating characters
("a<b" becomes "aa<b", and "Caen <p" duplicates the annotated "Caen "). -/
theorem claim_C6_unterminated_duplicates :
    wrap_locations_in_html (("a<b").toList) [] = ("aa<b").toList
    ∧ wrap_locations_in_html (("Caen <p").toList) [caenPlace]
        = ("<span class=\"location\" data-place-id=\"caen\">Caen</span> <span class=\"location\" data-place-id=\"caen\">Caen</span> <p").toList := by
  constructor
  · decide
  · decide

/-- C7: matching respects word boundaries: no match starts between two
word characters, every successful match is flanked by word boundaries on
both sides, and "Caen" produces no wrapper inside "Caennot". -/
theorem claim_C7_word_boundary :
    wrap_locations_in_html (("Caennot").toList) [caenPlace] = ("Caennot").toList
    ∧ (∀ (alts : List Str) (p c : Char) (rest : Str),
        isWordChar p = true → isWordChar c = true →
        findMatch alts (some p) (c :: rest) = none)
    ∧ ∀ (alts : List Str) (prev : Option Char) (rem a : Str),
        findMatch alts prev rem = some a →
        boundaryB prev rem.head? = true
          ∧ boundaryB (lastCharOpt a prev) ((rem.drop a.length).head?) = true := by
  refine ⟨by decide, fun alts p c rest hp hc => ?_, fun alts prev rem a h => ?_⟩
  · rw [findMatch]
    have hb : boundaryB (some p) ((c :: rest).head?) = false := by
      simp [boundaryB, isWordOpt, hp, hc]
    rw [hb]
    simp
  · exact ⟨(findMatch_some h).2.2.1, (findMatch_some h).2.2.2⟩

theorem claim_C7_witness :
    findMatch [("Caen").toList] (some 'e') ('n' :: ("not").toList) = none
    ∧ boundaryB (some ' ') ((("Caen x").toList).head?) = true
    ∧ boundaryB (lastCharOpt (("Caen").toList) (some ' '))
        (((("Caen x").toList).drop (("Caen").toList).length).head?) = true := by
  refine ⟨claim_C7_word_boundary.2.1 [("Caen").toList] 'e' 'n' (("not").toList)
            (by decide) (by decide), ?_, ?_⟩
  · exact (claim_C7_word_boundary.2.2 [("Caen").toList] (some ' ') (("Caen x").toList)
      (("Caen").toList) (by decide)).1
  · exact (claim_C7_word_boundary.2.2 [("Caen").toList] (some ' ') (("Caen x").toList)
      (("Caen").toList) (by decide)).2

/-- C8: `build_keyword_to_place_map` maps every lower-cased alias to
exactly one place with last-writer-wins on collision: if a place `p` has
the alias and no place after `p` in the collection has it, the lookup
binds the alias to `p` — in particular, of two places sharing an alias
the later one wins, silently. -/
theorem claim_C8_last_writer_wins (ps1 ps2 : List Place) (p : Place) (k : Str)
    (hp : ∃ kw ∈ p.keywords, lowerL kw = k)
    (hafter : ∀ q ∈ ps2, ∀ kw ∈ q.keywords, lowerL kw ≠ k) :
    build_keyword_to_place_map (ps1 ++ p :: ps2) k = some p := by
  rw [build_keyword_to_place_map]
  have hsplit : insertionList (ps1 ++ p :: ps2)
      = insertionList ps1 ++ ((p.keywords.map fun kw => (lowerL kw, p)) ++ insertionList ps2) := by
    simp [insertionList]
  rw [hsplit, List.foldl_append, List.foldl_append]
  have hmid : List.foldl (fun acc kv => if kv.1 == k then some kv.2 else acc)
      (List.foldl (fun acc kv => if kv.1 == k then some kv.2 else acc) none (insertionList ps1))
      (List.map (fun kw => (lowerL kw, p)) p.keywords) = some p := by
    refine lookup_foldl_allsame (fun kv hkv => ?_) (Or.inr ?_)
    · rcases List.mem_map.mp hkv with ⟨kw, _, rfl⟩
      rfl
    · rcases hp with ⟨kw, hkw, hk⟩
      exact ⟨(lowerL kw, p), List.mem_map.mpr ⟨kw, hkw, rfl⟩, hk⟩
  rw [hmid]
  refine lookup_foldl_nomatch fun kv hkv => ?_
  rcases mem_insertionList.mp hkv with ⟨q, hq, kw, hkw, rfl⟩
  exact hafter q hq kw hkw

theorem claim_C8_witness :
    build_keyword_to_place_map [placeA, placeB] (("caen").toList) = some placeB := by
  have h := claim_C8_last_writer_wins [placeA] [] placeB (("caen").toList)
    (by decide) (by decide)
  exact h

/-- C9 (counterexample): for the empty place collection the pattern
`\b()\b` still matches (the empty string at word boundaries), that
matched substring has no entry in the lookup map, and the defensive
fallback branch of `replace_match` is taken. -/
theorem claim_C9_counterexample :
    findMatch (create_keyword_pattern []) none (("a").toList) = some []
    ∧ build_keyword_to_place_map [] (lowerL []) = none
    ∧ replace_match [] [] = [] := by
  refine ⟨by decide, by decide, by decide⟩

/-- C9 (amended): when the place collection has at least one keyword,
every substring matched by the pattern built from it has, after
lower-casing, an entry in the lookup map built from the same collection,
so the defensive fallback branch of `replace_match` is never taken; and
in general a matched alias absent from the map leaves the text
unannotated rather than failing. -/
theorem claim_C9_fallback :
    (∀ (ps : List Place) (prev : Option Char) (rem a : Str),
        allKeywords ps ≠ [] →
        findMatch (create_keyword_pattern ps) prev rem = some a →
        ∃ p, build_keyword_to_place_map ps (lowerL a) = some p
          ∧ replace_match ps a = wrapPre ++ p.id ++ wrapMid ++ a ++ wrapPost)
    ∧ ∀ (ps : List Place) (a : Str),
        build_keyword_to_place_map ps (lowerL a) = none → replace_match ps a = a := by
  constructor
  · intro ps prev rem a hne hm
    have halts : create_keyword_pattern ps = sortByLenDesc (allKeywords ps) := by
      rw [create_keyword_pattern]
      have : (sortByLenDesc (allKeywords ps)).isEmpty = false := by
        rw [List.isEmpty_eq_false_iff_exists_mem]
        rcases List.exists_mem_of_ne_nil _ hne with ⟨kw, hkw⟩
        exact ⟨kw, mem_sortByLenDesc.mpr hkw⟩
      simp [this]
    rw [halts] at hm
    have hmem : a ∈ allKeywords ps := mem_sortByLenDesc.mp (findMatch_some hm).1
    rcases mem_allKeywords.mp hmem with ⟨p, hp, hkw⟩
    have hins : (lowerL a, p) ∈ insertionList ps :=
      mem_insertionList.mpr ⟨p, hp, a, hkw, rfl⟩
    have hsome : (build_keyword_to_place_map ps (lowerL a)).isSome := by
      rw [build_keyword_to_place_map]
      exact lookup_foldl_mem hins
    rcases Option.isSome_iff_exists.mp hsome with ⟨q, hq⟩
    exact ⟨q, hq, by rw [replace_match, hq]⟩
  · intro ps a h
    rw [replace_match, h]

theorem claim_C9_witness :
    (∃ p, build_keyword_to_place_map [caenPlace] (lowerL (("Caen").toList)) = some p
        ∧ replace_match [caenPlace] (("Caen").toList)
            = wrapPre ++ p.id ++ wrapMid ++ (("Caen").toList) ++ wrapPost)
    ∧ replace_match [] ([] : Str) = [] :=
  ⟨claim_C9_fallback.1 [caenPlace] none (("Caen").toList) (("Caen").toList)
      (by decide) (by decide),
   claim_C9_fallback.2 [] [] (by decide)⟩

/-- C10: with the empty place collection, annotation is the identity on
every well-formed input: the compiled pattern's single empty alternative
produces zero-width matches replaced by the empty matched text, and tag
and text runs are reassembled verbatim. -/
theorem claim_C10_empty_places_identity (rs : List Run) (h : GoodRuns rs) :
    wrap_locations_in_html (renderRuns rs) [] = renderRuns rs := by
  rw [wrap_runs [] rs h]
  have hmap : rs.map (processRun []) = rs.map renderRun := by
    refine List.map_congr_left fun r _ => ?_
    cases r with
    | text t =>
      show subst [] t = t
      exact subst_empty_places t
    | tag b => rfl
  rw [hmap]
  rfl

theorem claim_C10_witness :
    GoodRuns demoRuns
    ∧ wrap_locations_in_html (renderRuns demoRuns) [] = renderRuns demoRuns := by
  have hg : GoodRuns demoRuns :=
    GoodRuns.tag (by decide) (by decide)
      (GoodRuns.textTag (by decide) (by decide) (by decide) (by decide) GoodRuns.nil)
  exact ⟨hg, claim_C10_empty_places_identity demoRuns hg⟩

end Diary
